import Mathlib

/-!
Verification of the XML-to-Excel mapping tool (utils.py, process.py, app.py).

The development shallowly embeds the extraction/alignment/merge/write pipeline:

* `get_xpath` / `extract_xml_tags`  — the Path Extractor (utils.py),
* `extract_data_from_one_xml`      — the Value Extractor (process.py), with
  ElementTree `findall` modelled on the plain-path fragment the program uses,
* `final_data_to_write_by_sheet`   — the Cross-Source Merger (app.py),
* `alignTo` / `reindexTable`       — the Row Aligner (process.py / app.py),
* `write_dataframes_to_excel`      — the Template Writer (process.py, openpyxl).

Python strings are modelled as Lean `String` (a list of chars); the Python
string primitives used by the code (`in`, `startswith`, slicing, `rsplit`,
`strip`, `sorted`) are given direct executable models over `String.data`.
Cell values are `Option String`: `none` stands for Python `None` (and for the
absent/NaN padding values produced by alignment).
-/

/-- A cell value: `some s` is a string value, `none` is Python `None`/absent. -/
abbrev Cell := Option String

/-- A table: ordered association list from column name to its value list
(the model of a `pandas.DataFrame` built from a dict of lists). -/
abbrev Table := List (String × List Cell)

/-- Model of an XML element as parsed by `xml.etree.ElementTree`:
tag name, attributes in document order, direct text, child elements. -/
inductive XmlElement : Type where
  | mk (tag : String) (attrib : List (String × String)) (text : Option String)
       (children : List XmlElement)

/-- Tag name of an element. -/
def XmlElement.tag : XmlElement → String
  | .mk t _ _ _ => t

/-- Attribute list of an element (name/value pairs in document order). -/
def XmlElement.attrib : XmlElement → List (String × String)
  | .mk _ a _ _ => a

/-- Direct text of an element (`None` when absent). -/
def XmlElement.text : XmlElement → Option String
  | .mk _ _ t _ => t

/-- Child elements, in document order. -/
def XmlElement.children : XmlElement → List XmlElement
  | .mk _ _ _ c => c

/-- An input document: either well-formed (with its parsed root) or not
well-formed (in which case `ET.parse` raises `ParseError`). -/
inductive XmlInput : Type where
  | wellFormed (root : XmlElement)
  | malformed

/-- Python `c in s` for a single character. -/
def pyContains (s : String) (c : Char) : Bool := s.data.contains c

/-- Python `s.startswith(pre)`. -/
def pyStartsWith (s pre : String) : Bool := pre.data.isPrefixOf s.data

/-- Python `s[n:]` (slicing is by characters, as is Python `len`). -/
def pyDropChars (s : String) (n : Nat) : String := ⟨s.data.drop n⟩

/-- Python `s.strip()`: remove leading and trailing whitespace. -/
def pyStrip (s : String) : String :=
  ⟨((s.data.dropWhile Char.isWhitespace).reverse.dropWhile Char.isWhitespace).reverse⟩

/-- Truthiness of `element.text and element.text.strip()` (utils.py line 51):
true iff the text is present and non-empty after trimming whitespace. -/
def textTruthy : Option String → Bool
  | none => false
  | some s => !(pyStrip s).data.isEmpty

/-- Python `<` on strings, on char lists: lexicographic by code point. -/
def pyStrLeData : List Char → List Char → Bool
  | [], _ => true
  | _ :: _, [] => false
  | x :: xs, y :: ys => x.toNat < y.toNat || (x.toNat = y.toNat && pyStrLeData xs ys)

/-- The non-strict lexicographic code-point order Python's `sorted` sorts by. -/
def pyStrLe (a b : String) : Bool := pyStrLeData a.data b.data

/-- Python `s.split(sep)` for a one-character separator, on char lists. -/
def splitChar (sep : Char) : List Char → List (List Char)
  | [] => [[]]
  | c :: cs =>
    match splitChar sep cs with
    | [] => [[]]
    | h :: t => if c = sep then [] :: h :: t else (c :: h) :: t

/-- Python `s.rsplit('/@', 1)`: split at the last occurrence of `/@`.
Returns the two parts, or `none` when `/@` does not occur (in which case the
two-name unpacking in process.py line 47 raises `ValueError`). -/
def rsplitHead (c : Char) (cs : List Char) : Option (List Char × List Char) :=
  if c = '/' then
    match cs with
    | c2 :: rest => if c2 = '@' then some ([], rest) else none
    | [] => none
  else none

def rsplitLast : List Char → Option (List Char × List Char)
  | [] => none
  | c :: cs =>
    match rsplitLast cs with
    | some (a, b) => some (c :: a, b)
    | none => rsplitHead c cs

/-- Lookup in an ordered association list (model of Python dict lookup and of
`element.get(name)` on the attribute dict). -/
def alistGet {β : Type} (l : List (String × β)) (k : String) : Option β :=
  (l.find? (fun p => p.1 == k)).map (·.2)

/-- Python dict assignment `d[k] = v`: overwrite in place when the key exists,
otherwise append the new binding at the end (dict insertion order). -/
def dictInsert {β : Type} (l : List (String × β)) (k : String) (v : β) : List (String × β) :=
  if (alistGet l k).isSome then l.map (fun p => if p.1 = k then (k, v) else p)
  else l ++ [(k, v)]

mutual
/-- All proper descendants of an element, in document (preorder) order. -/
def descendants : XmlElement → List XmlElement
  | .mk _ _ _ cs => descendantsOf cs

/-- Concatenation of each listed element with its proper descendants. -/
def descendantsOf : List XmlElement → List XmlElement
  | [] => []
  | c :: cs => c :: (descendants c ++ descendantsOf cs)
end

/-- Characters that cannot appear in a plain tag token of an ElementTree path
expression (they are path-syntax operators or quote/space characters). -/
def pathSpecialChar (c : Char) : Bool :=
  c = '/' || c = '@' || c = '*' || c = '[' || c = ']' || c = '(' || c = ')' ||
  c = ':' || c = '=' || c = '!' || c = '\x27' || c = '\x22' || c = '\x7b' ||
  c = '\x7d' || c.isWhitespace

/-- A token that ElementTree's path parser reads as a plain tag name:
non-empty, not the `.` or `..` axis, and free of path-operator characters. -/
def plainTok (tok : List Char) : Bool :=
  !tok.isEmpty && tok ≠ ['.'] && tok ≠ ['.', '.'] && tok.all (fun c => !pathSpecialChar c)

/-- A string usable as an XML tag or attribute name in the modelled fragment. -/
def plainName (s : String) : Bool := plainTok s.data

/-- One step of ElementTree path selection over the current element list.
Handles the fragment reachable from this program: `.` (self), `*` (all
children), a plain tag (children with that tag), and `//` (descendants,
arising from an empty token followed by a tag or `*`). Any other token —
e.g. a token containing `@`, an unfinished predicate `[`, or the parent
axis `..` — is modelled as `none`, ElementTree's `SyntaxError`. -/
def selectChain : List (List Char) → List XmlElement → Option (List XmlElement)
  | [], cur => some cur
  | tok :: rest, cur =>
    if tok = ['.'] then selectChain rest cur
    else if tok = ['*'] then selectChain rest (cur.flatMap XmlElement.children)
    else if plainTok tok then
      selectChain rest (cur.flatMap (fun e => e.children.filter (fun c => c.tag.data == tok)))
    else if tok = [] then
      match rest with
      | next :: rest2 =>
        if next = ['*'] then selectChain rest2 (cur.flatMap descendants)
        else if plainTok next then
          selectChain rest2 ((cur.flatMap descendants).filter (fun e => e.tag.data == next))
        else none
      | [] => none
    else none

/-- Model of `root.findall(path)` (ElementTree). An empty path selects the
context element; a trailing `/` gets an implicit `*`; a leading `/` is the
"cannot use absolute path on element" `SyntaxError`, modelled as `none`;
otherwise the `/`-separated tokens are interpreted by `selectChain`. -/
def findall (root : XmlElement) (path : String) : Option (List XmlElement) :=
  if path = "" then some [root]
  else
    match splitChar '/'
        (if path.data.getLast? = some '/' then path.data ++ ['*'] else path.data) with
    | [] => some [root]
    | tok :: rest => if tok = [] then none else selectChain (tok :: rest) [root]

mutual
/-- The recursive path walk of utils.py (`get_xpath`): emit the element's path
when it is a childless element with non-whitespace text, emit one path per
attribute, then recurse into the children with the extended current path. -/
def get_xpath (e : XmlElement) (currentPath : String) : List String :=
  match e with
  | .mk tag attrib text children =>
    let path := if currentPath = "" then tag else currentPath ++ "/" ++ tag
    (if children.isEmpty && textTruthy text then [path] else [])
      ++ attrib.map (fun a => path ++ "/@" ++ a.1)
      ++ get_xpath_list children path

/-- `get_xpath` extended over a list of children (the recursion of utils.py
lines 59-60). -/
def get_xpath_list (es : List XmlElement) (currentPath : String) : List String :=
  match es with
  | [] => []
  | c :: cs => get_xpath c currentPath ++ get_xpath_list cs currentPath
end

mutual
/-- All (full path, element) pairs of the document, following exactly the path
construction of `get_xpath`; used to state per-element properties. -/
def pnodes (e : XmlElement) (currentPath : String) : List (String × XmlElement) :=
  match e with
  | .mk tag attrib text children =>
    let path := if currentPath = "" then tag else currentPath ++ "/" ++ tag
    (path, .mk tag attrib text children) :: pnodes_list children path

/-- `pnodes` extended over a list of children. -/
def pnodes_list (es : List XmlElement) (currentPath : String) : List (String × XmlElement) :=
  match es with
  | [] => []
  | c :: cs => pnodes c currentPath ++ pnodes_list cs currentPath
end

/-- The Path Extractor (utils.py `extract_xml_tags`): on a well-formed
document, the deduplicated, lexicographically sorted list of all paths found
by `get_xpath` from the root; on malformed XML the `except` branch reports an
empty list. -/
def extract_xml_tags (doc : XmlInput) : List String :=
  match doc with
  | .malformed => []
  | .wellFormed root => List.mergeSort (get_xpath root "").dedup pyStrLe

/-- Errors the Value Extractor can raise (process.py has no try/except, so
each of these propagates out of `extract_data_from_one_xml`):
`parseError` from `ET.parse` on malformed XML, `badSearch` from `findall` on
a syntactically invalid search expression, `badSplit` from unpacking
`rsplit('/@', 1)` when `/@` is absent from a path containing `@`. -/
inductive ExtractError : Type where
  | parseError
  | badSearch
  | badSplit
deriving DecidableEq

/-- Path normalization of process.py lines 46-64: a path equal to the root tag
becomes `.`; a path starting with the root tag and `/` is made relative by
stripping them; anything else is passed to `findall` unchanged. -/
def resolvePath (rootTag : String) (q : String) : String :=
  if q = rootTag then "."
  else if pyStartsWith q (rootTag ++ "/") then pyDropChars q (rootTag.length + 1)
  else q

/-- Extraction of the value list of one mapped column (process.py lines 38-75):
attribute paths collect `elem.get(attr)` (possibly `None`) per matched
element, element paths collect the element text (empty string when `None`). -/
def extractColumn (root : XmlElement) (xmlTagPath : String) : Except ExtractError (List Cell) :=
  if pyContains xmlTagPath '@' then
    match rsplitLast xmlTagPath.data with
    | none => .error .badSplit
    | some (baseData, attrData) =>
      match findall root (resolvePath root.tag ⟨baseData⟩) with
      | none => .error .badSearch
      | some es => .ok (es.map (fun e => alistGet e.attrib ⟨attrData⟩))
  else
    match findall root (resolvePath root.tag xmlTagPath) with
    | none => .error .badSearch
    | some es => .ok (es.map (fun e => some (e.text.getD "")))

/-- The per-sheet column loop of process.py lines 37-80: build the raw column
dict and the running maximum column length. An error in any column aborts the
whole call (there is no per-column handler). -/
def extractSheetCols (root : XmlElement) :
    List (String × String) → List (String × List Cell) × Nat →
    Except ExtractError (List (String × List Cell) × Nat)
  | [], acc => .ok acc
  | (excelCol, xmlTagPath) :: rest, (raw, maxLen) =>
    match extractColumn root xmlTagPath with
    | .error e => .error e
    | .ok values =>
      extractSheetCols root rest
        (dictInsert raw excelCol values,
         if values.length > maxLen then values.length else maxLen)

/-- The Row Aligner of process.py lines 83-86: pad every column with `None` up
to the target length, then truncate defensively to that length. -/
def alignTo (raw : List (String × List Cell)) (maxLen : Nat) : Table :=
  raw.map (fun cv => (cv.1, (cv.2 ++ List.replicate (maxLen - cv.2.length) none).take maxLen))

/-- The per-sheet loop of process.py lines 30-90: extract and align each
sheet's columns in mapping order, storing the aligned table under the sheet
name. -/
def extractSheets (root : XmlElement) :
    List (String × List (String × String)) → List (String × Table) →
    Except ExtractError (List (String × Table))
  | [], acc => .ok acc
  | (sheetName, sheetMappings) :: rest, acc =>
    match extractSheetCols root sheetMappings ([], 0) with
    | .error e => .error e
    | .ok (raw, maxLen) => extractSheets root rest (dictInsert acc sheetName (alignTo raw maxLen))

/-- The Value Extractor (process.py `extract_data_from_one_xml`): parses the
document (raising on malformed XML — line 23 has no try/except) and runs the
sheet loop. -/
def extract_data_from_one_xml (doc : XmlInput)
    (mappings : List (String × List (String × String))) :
    Except ExtractError (List (String × Table)) :=
  match doc with
  | .malformed => .error .parseError
  | .wellFormed root => extractSheets root mappings []

/-- The inner merge of app.py lines 269-273: append each column of the new
table whose name is not already a column of the existing table. -/
def mergeSheetTables (dfExisting dfNew : Table) : Table :=
  dfNew.foldl (fun ex cv => if (alistGet ex cv.1).isSome then ex else ex ++ [cv]) dfExisting

/-- The loop body of app.py lines 265-273 for one (sheet, table) pair of one
document: a sheet not yet in the accumulator is adopted as is; an existing
sheet receives the new table's missing columns via `mergeSheetTables`. -/
def mergeStep (acc2 : List (String × Table)) (st : String × Table) : List (String × Table) :=
  match alistGet acc2 st.1 with
  | none => acc2 ++ [st]
  | some dfExisting => dictInsert acc2 st.1 (mergeSheetTables dfExisting st.2)

/-- The Cross-Source Merger of app.py lines 262-273: fold the per-document
sheet-to-table maps in document order, applying `mergeStep` to every sheet of
every document. -/
def final_data_to_write_by_sheet (sources : List (List (String × Table))) :
    List (String × Table) :=
  sources.foldl (fun acc src => src.foldl mergeStep acc) []

/-- Number of rows of a table (a `DataFrame`'s `len`: the common column
length, 0 for a table with no columns). -/
def tableNRows (df : Table) : Nat := (df.head?.map (fun cv => cv.2.length)).getD 0

/-- The reindexing step of app.py lines 247-260: pad every column of a table
with absent values up to the global per-sheet row count (`DataFrame.reindex`
onto a larger `RangeIndex` keeps existing rows and adds absent tail rows). -/
def reindexTable (df : Table) (targetRows : Nat) : Table :=
  if tableNRows df < targetRows then
    df.map (fun cv => (cv.1, (cv.2 ++ List.replicate (targetRows - cv.2.length) none).take targetRows))
  else df

/-- A worksheet: rows in order (row 1 first), each row its cells in column
order (column 1 first); positions beyond the stored lists are empty cells. -/
abbrev Sheet := List (List Cell)

/-- Read the cell at 1-based row `r`, column `c` (empty positions are `none`). -/
def getCell (ws : Sheet) (r c : Nat) : Cell := (ws.getD (r - 1) []).getD (c - 1) none

/-- Extend a list with a pad value up to a given length. -/
def padListTo {α : Type} (l : List α) (n : Nat) (x : α) : List α :=
  l ++ List.replicate (n - l.length) x

/-- Model of openpyxl `worksheet.cell(row=r, column=c, value=v)`: the cell
value is assigned only when `v` is not `None` (openpyxl's `cell` leaves the
existing value in place for `value=None`); storage grows as needed. -/
def setCell (ws : Sheet) (r c : Nat) (v : Cell) : Sheet :=
  match v with
  | none => ws
  | some s =>
    let rows := padListTo ws r ([] : List Cell)
    rows.set (r - 1) ((padListTo (rows.getD (r - 1) []) c none).set (c - 1) (some s))

/-- One step of the header-map dict comprehension: record a non-`None` header
cell value at its 1-based column index, overwriting an earlier occurrence. -/
def headerStep (m : List (String × Nat)) (ih : Nat × Cell) : List (String × Nat) :=
  match ih.2 with
  | none => m
  | some h => dictInsert m h (ih.1 + 1)

/-- The header map of process.py lines 121-122: for each non-`None` header
cell value of row 1, its 1-based column index; a duplicated header value is
overwritten by each later occurrence (dict comprehension semantics). -/
def headerIndexMap (headerRowValues : List Cell) : List (String × Nat) :=
  (headerRowValues.enum).foldl headerStep []

/-- The per-column write loop of process.py lines 130-132, started at row `r`:
write each value of the list into the fixed column, one row per value. -/
def writeColumnFrom (colIdx : Nat) : Sheet → List Cell → Nat → Sheet
  | ws, [], _ => ws
  | ws, v :: vs, r => writeColumnFrom colIdx (setCell ws r colIdx v) vs (r + 1)

/-- Write one merged table into one template worksheet (process.py lines
120-134): compute the header map of row 1 once, then for each table column
whose name matches a header, write its values starting at row 2; columns with
no matching header are skipped. -/
def writeSheet (ws : Sheet) (df : Table) : Sheet :=
  let hmap := headerIndexMap (ws.getD 0 [])
  df.foldl
    (fun w cv =>
      match alistGet hmap cv.1 with
      | none => w
      | some colIdx => writeColumnFrom colIdx w cv.2 2)
    ws

/-- `DataFrame.empty`: no columns, or no rows (all columns empty — the merged
tables are rectangular, so every column is empty exactly when one is). -/
def tableEmpty (df : Table) : Bool := df.isEmpty || df.all (fun cv => cv.2.isEmpty)

/-- The Template Writer (process.py `write_dataframes_to_excel`): every
template sheet is kept; a sheet with a non-empty merged table is written via
`writeSheet`, all other sheets stay untouched; merged sheets with no template
counterpart are ignored (the loop runs over template sheet names only). -/
def write_dataframes_to_excel (template : List (String × Sheet))
    (dfs : List (String × Table)) : List (String × Sheet) :=
  template.map
    (fun nws =>
      match alistGet dfs nws.1 with
      | none => nws
      | some df => if tableEmpty df then nws else (nws.1, writeSheet nws.2 df))
/-- Specification vocabulary: the column names of a table, in order. -/
def colsOf (t : Table) : List String := t.map Prod.fst

/-- Specification vocabulary: append a name unless it is already present. -/
def addName (acc : List String) (n : String) : List String :=
  if n ∈ acc then acc else acc ++ [n]

/-- Specification vocabulary: keep the first occurrence of every name. -/
def dedupFirst (names : List String) : List String :=
  names.foldl addName []

/-- Specification vocabulary: the tables bound to sheet `s` in the stream of
(sheet, table) pairs of all documents, in processing order. -/
def tablesFor (sources : List (List (String × Table))) (s : String) : List Table :=
  (sources.flatMap id).filterMap (fun st => if st.1 = s then some st.2 else none)

/-- Specification vocabulary: the value of the first document table (in
processing order) that binds sheet `s` and contains column `c`. -/
def firstBinding (sources : List (List (String × Table))) (s c : String) : Option (List Cell) :=
  ((sources.flatMap id).filterMap
    (fun st => if st.1 = s then alistGet st.2 c else none)).head?

/-- Specification vocabulary: the 1-based position of the last (rightmost)
header cell of the row holding exactly the value `v`. -/
def lastHeaderPos (row : List Cell) (v : String) : Option Nat :=
  (row.enum.filterMap (fun ih => if ih.2 = some v then some (ih.1 + 1) else none)).getLast?

/-- The paths a single visited element contributes: its own path when it is a
childless element with non-whitespace text, and one path per attribute. -/
def pathEmit (q : String × XmlElement) : List String :=
  (if q.2.children.isEmpty && textTruthy q.2.text then [q.1] else [])
    ++ q.2.attrib.map (fun a => q.1 ++ "/@" ++ a.1)

/-- Join path segments with `/` (the shape of the strings `get_xpath` builds). -/
def joinSegs : List (List Char) → List Char
  | [] => []
  | [s] => s
  | s :: rest => s ++ '/' :: joinSegs rest

mutual
/-- Well-formedness for the modelled fragment: every tag and attribute name in
the subtree is a plain name (true of names accepted by the XML parser). -/
def wfElem : XmlElement → Bool
  | .mk tag attrib _ children =>
    plainName tag && attrib.all (fun a => plainName a.1) && wfList children

/-- `wfElem` over a list of elements. -/
def wfList : List XmlElement → Bool
  | [] => true
  | c :: cs => wfElem c && wfList cs
end

/-! ## Association list lemmas -/

theorem alistGet_nil {β : Type} (k : String) : alistGet ([] : List (String × β)) k = none := rfl

theorem alistGet_cons {β : Type} (p : String × β) (l : List (String × β)) (k : String) :
    alistGet (p :: l) k = if p.1 = k then some p.2 else alistGet l k := by
  by_cases h : p.1 = k
  · rw [alistGet, List.find?_cons_of_pos _ (by simpa using h), if_pos h]
    rfl
  · rw [alistGet, List.find?_cons_of_neg _ (by simpa using h), if_neg h]
    rfl

theorem alistGet_append {β : Type} (l1 l2 : List (String × β)) (k : String) :
    alistGet (l1 ++ l2) k = (alistGet l1 k).or (alistGet l2 k) := by
  induction l1 with
  | nil => simp [alistGet_nil]
  | cons p t ih =>
    rw [List.cons_append, alistGet_cons, alistGet_cons]
    by_cases h : p.1 = k <;> simp [h, ih]

theorem alistGet_overwrite {β : Type} (l : List (String × β)) (k k' : String) (v : β) :
    alistGet (l.map (fun p => if p.1 = k then (k, v) else p)) k'
      = if k' = k then (if (alistGet l k).isSome then some v else none)
        else alistGet l k' := by
  induction l with
  | nil => by_cases h : k' = k <;> simp [alistGet_nil, h]
  | cons p t ih =>
    rw [List.map_cons, alistGet_cons, alistGet_cons]
    by_cases hp : p.1 = k
    · by_cases hk : k' = k
      · subst hk
        simp [hp]
      · simp [alistGet_cons, hp, hk, ih, show ¬(k = k') from fun hh => hk hh.symm,
          show ¬(p.1 = k') from hp ▸ fun hh => hk hh.symm]
    · by_cases hk : k' = k
      · subst hk
        simp [hp, ih]
      · by_cases hpk : p.1 = k' <;> simp [alistGet_cons, hp, hk, hpk, ih]

theorem alistGet_dictInsert_self {β : Type} (l : List (String × β)) (k : String) (v : β) :
    alistGet (dictInsert l k v) k = some v := by
  rw [dictInsert]
  by_cases hs : (alistGet l k).isSome
  · rw [if_pos hs, alistGet_overwrite]
    simp [hs]
  · rw [if_neg hs, alistGet_append, alistGet_cons]
    simp only [Option.not_isSome_iff_eq_none] at hs
    simp [hs]

theorem alistGet_dictInsert_ne {β : Type} (l : List (String × β)) (k k' : String) (v : β)
    (h : k' ≠ k) : alistGet (dictInsert l k v) k' = alistGet l k' := by
  rw [dictInsert]
  by_cases hs : (alistGet l k).isSome
  · rw [if_pos hs, alistGet_overwrite, if_neg h]
  · rw [if_neg hs, alistGet_append, alistGet_cons, alistGet_nil]
    by_cases hk : k = k'
    · exact absurd hk.symm h
    · simp [hk]

/-! ## C5: the Row Aligner -/

/-- C5: for every raw table and target row count at least the longest column,
alignment keeps every column's original values first, pads the tail with
absent values up to exactly the target length; the reindexing form used for
the cross-document pass (on uniform-length tables, as produced for
DataFrames) returns the same padded table. -/
theorem C5_row_aligner (raw : List (String × List Cell)) (target : Nat)
    (h : ∀ cv ∈ raw, cv.2.length ≤ target) :
    alignTo raw target
        = raw.map (fun cv => (cv.1, cv.2 ++ List.replicate (target - cv.2.length) (none : Cell)))
      ∧ (∀ cv ∈ alignTo raw target, cv.2.length = target)
      ∧ ((∀ cv ∈ raw, cv.2.length = tableNRows raw) →
          reindexTable raw target
            = raw.map (fun cv =>
                (cv.1, cv.2 ++ List.replicate (target - cv.2.length) (none : Cell)))) := by
  have pad : ∀ cv ∈ raw,
      (cv.2 ++ List.replicate (target - cv.2.length) (none : Cell)).take target
        = cv.2 ++ List.replicate (target - cv.2.length) (none : Cell) := by
    intro cv hcv
    apply List.take_of_length_le
    simp [Nat.add_sub_cancel' (h cv hcv)]
  have h1 : alignTo raw target
      = raw.map (fun cv => (cv.1, cv.2 ++ List.replicate (target - cv.2.length) (none : Cell))) := by
    unfold alignTo
    exact List.map_congr_left (fun cv hcv => by rw [pad cv hcv])
  refine ⟨h1, ?_, ?_⟩
  · intro cv hcv
    rw [h1] at hcv
    obtain ⟨cv0, hcv0, rfl⟩ := List.mem_map.mp hcv
    simp [Nat.add_sub_cancel' (h cv0 hcv0)]
  · intro huni
    rw [reindexTable]
    by_cases hlt : tableNRows raw < target
    · rw [if_pos hlt]
      exact List.map_congr_left (fun cv hcv => by rw [pad cv hcv])
    · rw [if_neg hlt]
      have hall : ∀ cv ∈ raw, cv.2.length = target := by
        intro cv hcv
        have := huni cv hcv
        have := h cv hcv
        omega
      conv_lhs => rw [← List.map_id raw]
      refine (List.map_congr_left (fun cv hcv => ?_)).symm
      have hz : target - cv.2.length = 0 := by
        have := hall cv hcv
        omega
      simp [hz]

/-- Witness for C5 at a concrete two-column table with target row count 2. -/
theorem C5_row_aligner_witness :
    (∀ cv ∈ [("A", [some "x"]), ("B", ([] : List Cell))], cv.2.length ≤ 2)
      ∧ (alignTo [("A", [some "x"]), ("B", [])] 2
            = [("A", [some "x"]), ("B", ([] : List Cell))].map
                (fun cv => (cv.1, cv.2 ++ List.replicate (2 - cv.2.length) (none : Cell)))
        ∧ (∀ cv ∈ alignTo [("A", [some "x"]), ("B", [])] 2, cv.2.length = 2)
        ∧ ((∀ cv ∈ [("A", [some "x"]), ("B", ([] : List Cell))],
              cv.2.length = tableNRows [("A", [some "x"]), ("B", [])]) →
            reindexTable [("A", [some "x"]), ("B", [])] 2
              = [("A", [some "x"]), ("B", ([] : List Cell))].map
                  (fun cv => (cv.1, cv.2 ++ List.replicate (2 - cv.2.length) (none : Cell))))) :=
  ⟨by decide, C5_row_aligner [("A", [some "x"]), ("B", [])] 2 (by decide)⟩

/-! ## C1: malformed XML -/

/-- C1 counterexample: on a malformed document the Value Extractor does not
return the empty sheet map — the uncaught `ParseError` becomes an error
result (process.py line 23 has no try/except). -/
theorem C1_counterexample :
    extract_data_from_one_xml .malformed [("S", [("C", "r/x")])]
      ≠ .ok ([] : List (String × Table)) :=
  fun h => Except.noConfusion h

/-- C1 amended: on a malformed document the Path Extractor reports an empty
path list (utils.py catches the `ParseError`), but the Value Extractor raises:
`extract_data_from_one_xml` propagates the parse error instead of returning an
empty sheet-to-table map. -/
theorem C1_malformed_behavior (mappings : List (String × List (String × String))) :
    extract_xml_tags .malformed = []
      ∧ extract_data_from_one_xml .malformed mappings = .error .parseError :=
  ⟨rfl, rfl⟩

/-! ## C4: the Cross-Source Merger -/

theorem alistGet_mergeSheetTables (dfOld dfNew : Table) (c : String) :
    alistGet (mergeSheetTables dfOld dfNew) c = (alistGet dfOld c).or (alistGet dfNew c) := by
  induction dfNew generalizing dfOld with
  | nil => simp [mergeSheetTables, alistGet_nil]
  | cons cv rest ih =>
    show alistGet (List.foldl _ (if (alistGet dfOld cv.1).isSome then dfOld else dfOld ++ [cv]) rest) c
      = _
    by_cases hs : (alistGet dfOld cv.1).isSome
    · rw [if_pos hs]
      rw [show List.foldl _ dfOld rest = mergeSheetTables dfOld rest from rfl, ih]
      rw [alistGet_cons]
      by_cases hc : cv.1 = c
      · rw [if_pos hc]
        rw [hc] at hs
        obtain ⟨v, hv⟩ := Option.isSome_iff_exists.mp hs
        simp [hv]
      · rw [if_neg hc]
    · rw [if_neg hs]
      rw [show List.foldl _ (dfOld ++ [cv]) rest = mergeSheetTables (dfOld ++ [cv]) rest from rfl,
        ih, alistGet_append, alistGet_cons, alistGet_nil, Option.or_assoc]
      rw [alistGet_cons]
      by_cases hc : cv.1 = c <;> simp [hc]

theorem alistGet_mergeStep (acc : List (String × Table)) (st : String × Table) (s : String) :
    alistGet (mergeStep acc st) s
      = if st.1 = s then
          (match alistGet acc s with
           | none => some st.2
           | some old => some (mergeSheetTables old st.2))
        else alistGet acc s := by
  rw [mergeStep]
  by_cases h1 : st.1 = s
  · subst h1
    match hacc : alistGet acc st.1 with
    | none => simp [hacc, alistGet_append, alistGet_cons]
    | some old => simp [hacc, alistGet_dictInsert_self]
  · match hacc : alistGet acc st.1 with
    | none =>
      rw [if_neg h1, alistGet_append, alistGet_cons, alistGet_nil]
      simp [h1]
    | some old =>
      rw [if_neg h1]
      exact alistGet_dictInsert_ne _ _ _ _ (fun hh => h1 hh.symm)

/-- The merged binding of sheet `s` after folding a stream of pairs is the
left fold of `mergeSheetTables` over the tables bound to `s`. -/
theorem alistGet_foldl_mergeStep (pairs : List (String × Table))
    (acc : List (String × Table)) (s : String) :
    alistGet (pairs.foldl mergeStep acc) s
      = (match alistGet acc s,
               pairs.filterMap (fun st => if st.1 = s then some st.2 else none) with
         | none, [] => none
         | none, t0 :: ts => some (List.foldl mergeSheetTables t0 ts)
         | some t, ts => some (List.foldl mergeSheetTables t ts)) := by
  induction pairs generalizing acc with
  | nil => match hacc : alistGet acc s with
    | none => simp [hacc]
    | some t => simp [hacc]
  | cons st rest ih =>
    rw [List.foldl_cons, ih, List.filterMap_cons]
    by_cases h1 : st.1 = s
    · rw [alistGet_mergeStep, if_pos h1, if_pos h1]
      match hacc : alistGet acc s with
      | none => simp
      | some t => simp
    · rw [alistGet_mergeStep, if_neg h1, if_neg h1]

theorem colsOf_mem_iff (t : Table) (c : String) :
    (alistGet t c).isSome = true ↔ c ∈ colsOf t := by
  induction t with
  | nil => simp [alistGet_nil, colsOf]
  | cons cv rest ih =>
    rw [alistGet_cons]
    by_cases hc : cv.1 = c
    · simp [hc, colsOf]
    · rw [if_neg hc, ih]
      simp only [colsOf, List.map_cons, List.mem_cons]
      constructor
      · exact fun h => Or.inr h
      · rintro (h | h)
        · exact absurd h.symm hc
        · exact h

theorem colsOf_mergeSheetTables (dfOld dfNew : Table) :
    colsOf (mergeSheetTables dfOld dfNew)
      = List.foldl addName (colsOf dfOld) (colsOf dfNew) := by
  induction dfNew generalizing dfOld with
  | nil => rfl
  | cons cv rest ih =>
    show colsOf (List.foldl _ (if (alistGet dfOld cv.1).isSome then dfOld else dfOld ++ [cv]) rest)
      = List.foldl addName (addName (colsOf dfOld) cv.1) (colsOf rest)
    by_cases hs : (alistGet dfOld cv.1).isSome
    · rw [if_pos hs]
      rw [show List.foldl _ dfOld rest = mergeSheetTables dfOld rest from rfl, ih]
      rw [addName, if_pos ((colsOf_mem_iff dfOld cv.1).mp hs)]
    · rw [if_neg hs]
      rw [show List.foldl _ (dfOld ++ [cv]) rest = mergeSheetTables (dfOld ++ [cv]) rest from rfl,
        ih]
      have : cv.1 ∉ colsOf dfOld := fun hmem => hs ((colsOf_mem_iff dfOld cv.1).mpr hmem)
      rw [addName, if_neg this]
      simp [colsOf]

theorem colsOf_foldl_merge (t0 : Table) (ts : List Table) :
    colsOf (List.foldl mergeSheetTables t0 ts)
      = List.foldl addName (colsOf t0) (ts.flatMap colsOf) := by
  induction ts generalizing t0 with
  | nil => rfl
  | cons t rest ih =>
    rw [List.foldl_cons, ih, colsOf_mergeSheetTables, List.flatMap_cons, List.foldl_append]

theorem foldl_addName_of_disjoint_nodup (l a : List String)
    (hd : ∀ x ∈ l, x ∉ a) (hn : l.Nodup) : List.foldl addName a l = a ++ l := by
  induction l generalizing a with
  | nil => simp
  | cons n rest ih =>
    rw [List.foldl_cons, addName, if_neg (hd n (List.mem_cons_self n rest))]
    rw [ih (a ++ [n])
      (fun x hx => by
        intro hmem
        rcases List.mem_append.mp hmem with h1 | h1
        · exact hd x (List.mem_cons_of_mem n hx) h1
        · rw [List.mem_singleton] at h1
          exact (List.nodup_cons.mp hn).1 (h1 ▸ hx))
      (List.nodup_cons.mp hn).2]
    simp

theorem dedupFirst_of_nodup (l : List String) (hn : l.Nodup) : dedupFirst l = l := by
  rw [dedupFirst, foldl_addName_of_disjoint_nodup l [] (by simp) hn]
  simp

theorem dedupFirst_append (xs ys : List String) :
    dedupFirst (xs ++ ys) = List.foldl addName (dedupFirst xs) ys := by
  rw [dedupFirst, dedupFirst, List.foldl_append]

theorem alistGet_foldl_merge (t0 : Table) (ts : List Table) (c : String) :
    alistGet (List.foldl mergeSheetTables t0 ts) c
      = (alistGet t0 c).or ((ts.filterMap (fun t => alistGet t c)).head?) := by
  induction ts generalizing t0 with
  | nil => simp
  | cons t rest ih =>
    rw [List.foldl_cons, ih, alistGet_mergeSheetTables, Option.or_assoc, List.filterMap_cons]
    match ht : alistGet t c with
    | none => simp
    | some v => simp

theorem foldl_foldl_eq_foldl_flatMap {α β : Type} (f : β → α → β)
    (ls : List (List α)) (acc : β) :
    ls.foldl (fun a l => l.foldl f a) acc = (ls.flatMap id).foldl f acc := by
  induction ls generalizing acc with
  | nil => rfl
  | cons l rest ih => rw [List.foldl_cons, ih, List.flatMap_cons, List.foldl_append, id]

theorem firstBinding_eq_head (sources : List (List (String × Table))) (s c : String) :
    firstBinding sources s c
      = ((tablesFor sources s).filterMap (fun t => alistGet t c)).head? := by
  rw [firstBinding, tablesFor, List.filterMap_filterMap]
  congr 1
  apply List.filterMap_congr
  intro st _
  by_cases h1 : st.1 = s <;> simp [h1]

/-- C4: the Cross-Source Merger processes documents in order with a per-sheet
column union. The value bound to sheet `s`, column `c` in the merged result is
the one from the first document table (in processing order) binding that sheet
and column — a column already present is never overwritten by a later
document. Moreover (for tables with distinct column names, as DataFrames
have), the merged column list for a sheet is the first-occurrence union of the
contributors' column lists: the first table for the sheet is adopted verbatim
and later tables' new columns are appended in order. -/
theorem C4_merger_first_writer_wins (sources : List (List (String × Table))) (s c : String) :
    (alistGet (final_data_to_write_by_sheet sources) s).bind (fun t => alistGet t c)
        = firstBinding sources s c
      ∧ ((∀ src ∈ sources, ∀ st ∈ src, (colsOf st.2).Nodup) →
          (alistGet (final_data_to_write_by_sheet sources) s).map colsOf
            = match tablesFor sources s with
              | [] => none
              | t0 :: ts => some (dedupFirst ((t0 :: ts).flatMap colsOf))) := by
  have hfinal : alistGet (final_data_to_write_by_sheet sources) s
      = match tablesFor sources s with
        | [] => none
        | t0 :: ts => some (List.foldl mergeSheetTables t0 ts) := by
    rw [final_data_to_write_by_sheet, foldl_foldl_eq_foldl_flatMap, alistGet_foldl_mergeStep,
      alistGet_nil, ← tablesFor]
    cases tablesFor sources s <;> rfl
  constructor
  · rw [hfinal, firstBinding_eq_head]
    cases htf : tablesFor sources s with
    | nil => simp
    | cons t0 ts =>
      rw [show (some (List.foldl mergeSheetTables t0 ts)).bind (fun t => alistGet t c)
          = alistGet (List.foldl mergeSheetTables t0 ts) c from rfl]
      rw [alistGet_foldl_merge, List.filterMap_cons]
      cases h0 : alistGet t0 c with
      | none => simp
      | some v => simp
  · intro hnd
    have hmem : ∀ t ∈ tablesFor sources s, (colsOf t).Nodup := by
      intro t ht
      rw [tablesFor] at ht
      obtain ⟨st, hst, hif⟩ := List.mem_filterMap.mp ht
      obtain ⟨src, hsrc, hstsrc⟩ := List.mem_flatMap.mp hst
      by_cases h1 : st.1 = s
      · rw [if_pos h1] at hif
        injection hif with h2
        rw [← h2]
        exact hnd src hsrc st hstsrc
      · rw [if_neg h1] at hif
        exact absurd hif (by simp)
    rw [hfinal]
    cases htf : tablesFor sources s with
    | nil => simp
    | cons t0 ts =>
      rw [show (some (List.foldl mergeSheetTables t0 ts)).map colsOf
          = some (colsOf (List.foldl mergeSheetTables t0 ts)) from rfl]
      congr 1
      rw [colsOf_foldl_merge, List.flatMap_cons, dedupFirst_append,
        dedupFirst_of_nodup (colsOf t0) (hmem t0 (htf ▸ List.mem_cons_self t0 ts))]

/-- Witness for C4: two documents both map sheet Data; the first supplies
column Name, the second supplies Name (losing) and City (appended). -/
theorem C4_merger_first_writer_wins_witness :
    (alistGet
        (final_data_to_write_by_sheet
          [[("Data", [("Name", [some "A"])])],
           [("Data", [("Name", [some "X"]), ("City", [some "B"])])]])
        "Data").bind (fun t => alistGet t "Name") = some [some "A"]
      ∧ (alistGet
          (final_data_to_write_by_sheet
            [[("Data", [("Name", [some "A"])])],
             [("Data", [("Name", [some "X"]), ("City", [some "B"])])]])
          "Data").map colsOf = some ["Name", "City"] := by
  have h := C4_merger_first_writer_wins
    [[("Data", [("Name", [some "A"])])],
     [("Data", [("Name", [some "X"]), ("City", [some "B"])])]] "Data" "Name"
  refine ⟨?_, ?_⟩
  · rw [h.1]
    decide
  · rw [h.2 (by decide)]
    decide
/-! ## Worksheet cell lemmas -/

theorem getD_replicate {α : Type} (n i : Nat) (d : α) :
    (List.replicate n d).getD i d = d := by
  induction n generalizing i with
  | zero => cases i <;> rfl
  | succ m ih =>
    cases i with
    | zero => rfl
    | succ k => exact ih k

theorem getD_append_replicate {α : Type} (l : List α) (n i : Nat) (d : α) :
    (l ++ List.replicate n d).getD i d = l.getD i d := by
  induction l generalizing i with
  | nil => simp [getD_replicate n i d]
  | cons x t ih =>
    cases i with
    | zero => rfl
    | succ k => exact ih k

theorem getD_padListTo {α : Type} (l : List α) (n i : Nat) (d : α) :
    (padListTo l n d).getD i d = l.getD i d :=
  getD_append_replicate l _ i d

theorem length_padListTo {α : Type} (l : List α) (n : Nat) (d : α) :
    n ≤ (padListTo l n d).length := by
  rw [padListTo, List.length_append, List.length_replicate]
  omega

theorem getD_set_self {α : Type} (l : List α) (i : Nat) (a d : α) (h : i < l.length) :
    (l.set i a).getD i d = a := by
  rw [List.getD_eq_getElem?_getD, List.getElem?_set_self]
  · rfl
  · exact h

theorem getD_set_ne {α : Type} (l : List α) (i j : Nat) (a d : α) (h : i ≠ j) :
    (l.set i a).getD j d = l.getD j d := by
  rw [List.getD_eq_getElem?_getD, List.getElem?_set_ne h, ← List.getD_eq_getElem?_getD]

/-- Frame property of a single cell write: any other (1-based) position reads
the same value afterwards. -/
theorem getCell_setCell_ne (ws : Sheet) (r c : Nat) (v : Cell) (r' c' : Nat)
    (hrpos : 1 ≤ r) (hcpos : 1 ≤ c) (hr : 1 ≤ r') (hc : 1 ≤ c')
    (h : ¬(r' = r ∧ c' = c)) :
    getCell (setCell ws r c v) r' c' = getCell ws r' c' := by
  match v with
  | none => rfl
  | some s =>
    rw [setCell, getCell, getCell]
    by_cases hrr : r' = r
    · subst hrr
      have hcc : c' ≠ c := fun hx => h ⟨rfl, hx⟩
      have hlen : r' - 1 < (padListTo ws r' ([] : List Cell)).length := by
        have := length_padListTo ws r' ([] : List Cell)
        omega
      rw [getD_set_self _ _ _ _ hlen]
      rw [getD_set_ne _ _ _ _ _ (by omega : c - 1 ≠ c' - 1)]
      rw [getD_padListTo, getD_padListTo]
    · rw [getD_set_ne _ _ _ _ _ (by omega : r - 1 ≠ r' - 1), getD_padListTo]

/-- A cell write at row 2 or below leaves the stored header row unchanged. -/
theorem setCell_row1 (ws : Sheet) (r c : Nat) (v : Cell) (hr : 2 ≤ r) :
    (setCell ws r c v).getD 0 [] = ws.getD 0 [] := by
  match v with
  | none => rfl
  | some s =>
    rw [setCell]
    rw [getD_set_ne _ _ _ _ _ (by omega : r - 1 ≠ 0), getD_padListTo]

/-- Frame property of one column write: positions in another column, above the
start row, or below the written values are unchanged. -/
theorem getCell_writeColumnFrom (colIdx : Nat) (ws : Sheet) (vs : List Cell) (row0 : Nat)
    (r' c' : Nat) (hcol : 1 ≤ colIdx) (hrow0 : 1 ≤ row0) (hr : 1 ≤ r') (hc : 1 ≤ c')
    (h : c' ≠ colIdx ∨ r' < row0 ∨ row0 + vs.length ≤ r') :
    getCell (writeColumnFrom colIdx ws vs row0) r' c' = getCell ws r' c' := by
  induction vs generalizing ws row0 with
  | nil => rfl
  | cons v rest ih =>
    rw [writeColumnFrom]
    rw [ih (setCell ws row0 colIdx v) (row0 + 1) (by omega)
      (by rcases h with h | h | h
          · exact Or.inl h
          · exact Or.inr (Or.inl (by omega))
          · refine Or.inr (Or.inr ?_)
            rw [List.length_cons] at h
            omega)]
    refine getCell_setCell_ne ws row0 colIdx v r' c' hrow0 hcol hr hc ?_
    rintro ⟨rfl, rfl⟩
    rcases h with h | h | h
    · exact h rfl
    · omega
    · rw [List.length_cons] at h
      omega

theorem writeColumnFrom_row1 (colIdx : Nat) (ws : Sheet) (vs : List Cell) (row0 : Nat)
    (hrow : 2 ≤ row0) :
    (writeColumnFrom colIdx ws vs row0).getD 0 [] = ws.getD 0 [] := by
  induction vs generalizing ws row0 with
  | nil => rfl
  | cons v rest ih =>
    rw [writeColumnFrom, ih (setCell ws row0 colIdx v) (row0 + 1) (by omega),
      setCell_row1 ws row0 colIdx v hrow]

/-! ## Header map and sheet-write lemmas -/

theorem getLast?_cons_or {α : Type} (x : α) (l : List α) :
    (x :: l).getLast? = (l.getLast?).or (some x) := by
  cases l with
  | nil => rfl
  | cons y t =>
    rw [List.getLast?_cons_cons]
    cases h : (y :: t).getLast? with
    | none => simp_all
    | some z => rfl

theorem alistGet_foldl_headerStep (pairs : List (Nat × Cell))
    (m0 : List (String × Nat)) (k : String) :
    alistGet (pairs.foldl headerStep m0) k
      = ((pairs.filterMap
            (fun ih => if ih.2 = some k then some (ih.1 + 1) else none)).getLast?).or
          (alistGet m0 k) := by
  induction pairs generalizing m0 with
  | nil => simp
  | cons p rest ih =>
    obtain ⟨n, x⟩ := p
    rw [List.foldl_cons, ih, List.filterMap_cons]
    cases x with
    | none => simp [headerStep]
    | some h =>
      by_cases hk : h = k
      · subst hk
        simp only [headerStep, if_pos rfl, getLast?_cons_or, Option.or_assoc,
          alistGet_dictInsert_self]
        cases hl : (rest.filterMap
            (fun ih => if ih.2 = some h then some (ih.1 + 1) else none)).getLast? <;>
          simp [getLast?_cons_or, hl]
      · simp only [headerStep]
        rw [if_neg (by simp [hk]), alistGet_dictInsert_ne _ _ _ _ (fun hh => hk hh.symm)]

/-- The header map binds each header value to its rightmost occurrence. -/
theorem headerIndexMap_eq_lastHeaderPos (row : List Cell) (k : String) :
    alistGet (headerIndexMap row) k = lastHeaderPos row k := by
  rw [headerIndexMap, alistGet_foldl_headerStep, alistGet_nil, Option.or_none, lastHeaderPos]

theorem lastHeaderPos_spec (row : List Cell) (v : String) (p : Nat)
    (h : lastHeaderPos row v = some p) :
    1 ≤ p ∧ row.getD (p - 1) none = some v := by
  have hm := List.mem_of_getLast?_eq_some h
  obtain ⟨ih, hmem, hcond⟩ := List.mem_filterMap.mp hm
  obtain ⟨n, x⟩ := ih
  by_cases hc : x = some v
  · rw [if_pos (by simpa using hc)] at hcond
    injection hcond with h2
    subst h2
    refine ⟨by omega, ?_⟩
    have hx := List.mk_mem_enum_iff_getElem?.mp hmem
    rw [Nat.add_sub_cancel, List.getD_eq_getElem?_getD, hx, hc]
    rfl
  · rw [if_neg (by simpa using hc)] at hcond
    exact absurd hcond (by simp)

theorem getCell_foldl_writeCols (hmap : List (String × Nat)) (df : Table) (w : Sheet)
    (r c : Nat) (hr : 1 ≤ r) (hc : 1 ≤ c)
    (hpos : ∀ k idx, alistGet hmap k = some idx → 1 ≤ idx)
    (hout : ∀ cv ∈ df, ∀ colIdx, alistGet hmap cv.1 = some colIdx →
        c ≠ colIdx ∨ r < 2 ∨ 2 + cv.2.length ≤ r) :
    getCell
      (df.foldl
        (fun w cv =>
          match alistGet hmap cv.1 with
          | none => w
          | some colIdx => writeColumnFrom colIdx w cv.2 2) w) r c
      = getCell w r c := by
  induction df generalizing w with
  | nil => rfl
  | cons cv rest ih =>
    rw [List.foldl_cons,
      ih _ (fun cv2 h2 => hout cv2 (List.mem_cons_of_mem cv h2))]
    cases hm : alistGet hmap cv.1 with
    | none => rfl
    | some colIdx =>
      exact getCell_writeColumnFrom colIdx w cv.2 2 r c (hpos _ _ hm) (by omega) hr hc
        (hout cv (List.mem_cons_self cv rest) colIdx hm)

/-- Frame property of `writeSheet`: a (1-based) position not in a matched
column within the written row range reads the same value afterwards. -/
theorem writeSheet_frame (ws : Sheet) (df : Table) (r c : Nat)
    (hr : 1 ≤ r) (hc : 1 ≤ c)
    (hout : ∀ cv ∈ df, ∀ colIdx,
        alistGet (headerIndexMap (ws.getD 0 [])) cv.1 = some colIdx →
        c ≠ colIdx ∨ r < 2 ∨ 2 + cv.2.length ≤ r) :
    getCell (writeSheet ws df) r c = getCell ws r c := by
  have hpos : ∀ k idx, alistGet (headerIndexMap (ws.getD 0 [])) k = some idx → 1 ≤ idx := by
    intro k idx hk
    rw [headerIndexMap_eq_lastHeaderPos] at hk
    exact (lastHeaderPos_spec _ _ _ hk).1
  exact getCell_foldl_writeCols (headerIndexMap (ws.getD 0 [])) df ws r c hr hc hpos hout

theorem row1_foldl_writeCols (hmap : List (String × Nat)) (df : Table) (w : Sheet) :
    (df.foldl
      (fun w cv =>
        match alistGet hmap cv.1 with
        | none => w
        | some colIdx => writeColumnFrom colIdx w cv.2 2) w).getD 0 []
      = w.getD 0 [] := by
  induction df generalizing w with
  | nil => rfl
  | cons cv rest ih =>
    rw [List.foldl_cons, ih]
    cases hm : alistGet hmap cv.1 with
    | none => rfl
    | some colIdx => exact writeColumnFrom_row1 colIdx w cv.2 2 (by omega)

/-- `writeSheet` never changes the stored header row. -/
theorem writeSheet_row1 (ws : Sheet) (df : Table) :
    (writeSheet ws df).getD 0 [] = ws.getD 0 [] :=
  row1_foldl_writeCols (headerIndexMap (ws.getD 0 [])) df ws

/-! ## C6, C9, C10: the Template Writer -/

/-- C6: the Template Writer creates no new sheets and no new header columns:
the output workbook has exactly the template's sheet names in order, every
output sheet's header row (row 1) is identical to the template's, merged
tables whose sheet is absent from the template are dropped (they appear
nowhere in the output), and template sheets with no merged data are returned
untouched. -/
theorem C6_template_writer (template : List (String × Sheet)) (dfs : List (String × Table)) :
    (write_dataframes_to_excel template dfs).map Prod.fst = template.map Prod.fst
      ∧ (∀ i : Nat,
          ((write_dataframes_to_excel template dfs)[i]?).map (fun nws => nws.2.getD 0 [])
            = (template[i]?).map (fun nws => nws.2.getD 0 []))
      ∧ (∀ (i : Nat) (nws : String × Sheet), template[i]? = some nws →
          alistGet dfs nws.1 = none →
          (write_dataframes_to_excel template dfs)[i]? = some nws) := by
  refine ⟨?_, ?_, ?_⟩
  · rw [write_dataframes_to_excel, List.map_map]
    apply List.map_congr_left
    intro nws _
    cases hm : alistGet dfs nws.1 with
    | none => simp [hm]
    | some df =>
      by_cases he : tableEmpty df <;> simp [hm, he]
  · intro i
    rw [write_dataframes_to_excel, List.getElem?_map]
    cases ht : template[i]? with
    | none => rfl
    | some nws =>
      show some _ = some _
      congr 1
      cases hm : alistGet dfs nws.1 with
      | none => simp [hm]
      | some df =>
        by_cases he : tableEmpty df
        · simp [hm, he]
        · simp only [hm, he, if_neg, Bool.false_eq_true]
          exact writeSheet_row1 nws.2 df
  · intro i nws ht hnone
    rw [write_dataframes_to_excel, List.getElem?_map, ht]
    simp [hnone]

/-- Witness for C6: a two-sheet template; sheet Data is written, sheet Other
has no merged data and the merged sheet Ghost is not in the template. -/
theorem C6_template_writer_witness :
    (write_dataframes_to_excel
        [("Data", [[some "Name"], [some "old"]]), ("Other", [[some "K"]])]
        [("Data", [("Name", [some "Alice"])]), ("Ghost", [("Z", [some "1"])])]).map Prod.fst
      = [("Data", [[some "Name"], [some "old"]]), ("Other", [[some "K"]])].map Prod.fst
    ∧ ((write_dataframes_to_excel
          [("Data", [[some "Name"], [some "old"]]), ("Other", [[some "K"]])]
          [("Data", [("Name", [some "Alice"])]), ("Ghost", [("Z", [some "1"])])])[0]?).map
        (fun nws => nws.2.getD 0 [])
      = some [some "Name"]
    ∧ (write_dataframes_to_excel
          [("Data", [[some "Name"], [some "old"]]), ("Other", [[some "K"]])]
          [("Data", [("Name", [some "Alice"])]), ("Ghost", [("Z", [some "1"])])])[1]?
      = some ("Other", [[some "K"]]) := by
  have h := C6_template_writer
    [("Data", [[some "Name"], [some "old"]]), ("Other", [[some "K"]])]
    [("Data", [("Name", [some "Alice"])]), ("Ghost", [("Z", [some "1"])])]
  refine ⟨h.1, ?_, ?_⟩
  · rw [h.2.1 0]
    decide
  · exact h.2.2 1 ("Other", [[some "K"]]) (by decide) (by decide)

/-- C10: for every matched (sheet, column) pair the Template Writer overwrites
only the cells from the row immediately below the header (row 2) through row
(number of values + 1) of the matched column: every other (1-based) position
— above row 2, below the written range, or in a column no table column is
matched to — keeps its template value. -/
theorem C10_write_frame (ws : Sheet) (df : Table) (r c : Nat)
    (hr : 1 ≤ r) (hc : 1 ≤ c)
    (hout : ∀ cv ∈ df, ∀ colIdx,
        alistGet (headerIndexMap (ws.getD 0 [])) cv.1 = some colIdx →
        c ≠ colIdx ∨ r < 2 ∨ 2 + cv.2.length ≤ r) :
    getCell (writeSheet ws df) r c = getCell ws r c :=
  writeSheet_frame ws df r c hr hc hout

/-- Witness for C10: a one-column template with stale content below the
written range; the cell below the single written row keeps its old value. -/
theorem C10_write_frame_witness :
    getCell (writeSheet [[some "H"], [some "a"], [some "b"]] [("H", [some "v"])]) 3 1
      = getCell [[some "H"], [some "a"], [some "b"]] 3 1 :=
  C10_write_frame [[some "H"], [some "a"], [some "b"]] [("H", [some "v"])] 3 1
    (by decide) (by decide) (by decide)

/-- C9: when the template header row holds the same value `v` in more than one
column, the header map binds `v` to its last (rightmost) occurrence, and any
earlier column holding `v` receives no data: all its cells keep their template
values when a merged table with a column named `v` (or any other columns) is
written. -/
theorem C9_duplicate_header_last_wins (ws : Sheet) (df : Table) (v : String)
    (i j r : Nat)
    (hipos : 1 ≤ i) (hr : 1 ≤ r)
    (hi : (ws.getD 0 []).getD (i - 1) none = some v)
    (hj : lastHeaderPos (ws.getD 0 []) v = some j)
    (hij : i ≠ j) :
    alistGet (headerIndexMap (ws.getD 0 [])) v = some j
      ∧ getCell (writeSheet ws df) r i = getCell ws r i := by
  refine ⟨by rw [headerIndexMap_eq_lastHeaderPos]; exact hj, ?_⟩
  apply writeSheet_frame ws df r i hr hipos
  intro cv _ colIdx hcol
  left
  intro hci
  rw [headerIndexMap_eq_lastHeaderPos] at hcol
  have hspec := lastHeaderPos_spec _ _ _ hcol
  rw [← hci] at hspec
  have hveq : cv.1 = v := by
    have := hspec.2
    rw [hi] at this
    injection this with h2
    exact h2.symm
  rw [hveq] at hcol
  rw [hj] at hcol
  injection hcol with h2
  exact hij (hci.trans h2.symm)

/-- Witness for C9: header row [A, B, A]; a merged column named A is written
into column 3 only, and cell (2,1) under the first A keeps its template
value. -/
theorem C9_duplicate_header_last_wins_witness :
    alistGet (headerIndexMap
        (([[some "A", some "B", some "A"], [some "x", none, none]] : Sheet).getD 0 [])) "A"
      = some 3
    ∧ getCell
        (writeSheet [[some "A", some "B", some "A"], [some "x", none, none]]
          [("A", [some "v"])]) 2 1
      = getCell [[some "A", some "B", some "A"], [some "x", none, none]] 2 1 :=
  C9_duplicate_header_last_wins
    [[some "A", some "B", some "A"], [some "x", none, none]] [("A", [some "v"])]
    "A" 1 3 2 (by decide) (by decide) (by decide) (by decide) (by decide)

/-! ## C7: the Path Extractor -/

set_option linter.unusedVariables false in
theorem xml_ind (P : XmlElement → Prop)
    (h : ∀ tag attrib text children, (∀ c ∈ children, P c) → P (.mk tag attrib text children)) :
    ∀ e, P e
  | .mk t a x cs => h t a x cs (fun c hc => xml_ind P h c)
termination_by e => sizeOf e
decreasing_by
  have := List.sizeOf_lt_of_mem hc
  simp
  omega

theorem pyStrLeData_total : ∀ a b, (pyStrLeData a b || pyStrLeData b a) = true := by
  intro a
  induction a with
  | nil => intro b; simp [pyStrLeData]
  | cons x xs ih =>
    intro b
    cases b with
    | nil => simp [pyStrLeData]
    | cons y ys =>
      simp only [pyStrLeData, Bool.or_eq_true, decide_eq_true_eq, Bool.and_eq_true]
      rcases Nat.lt_trichotomy x.toNat y.toNat with hlt | heq | hgt
      · exact Or.inl (Or.inl hlt)
      · have := ih ys
        simp only [Bool.or_eq_true] at this
        rcases this with h1 | h1
        · exact Or.inl (Or.inr ⟨heq, h1⟩)
        · exact Or.inr (Or.inr ⟨heq.symm, h1⟩)
      · exact Or.inr (Or.inl hgt)

theorem pyStrLeData_trans :
    ∀ a b c, pyStrLeData a b = true → pyStrLeData b c = true → pyStrLeData a c = true := by
  intro a
  induction a with
  | nil => intro b c _ _; simp [pyStrLeData]
  | cons x xs ih =>
    intro b c h1 h2
    cases b with
    | nil => simp [pyStrLeData] at h1
    | cons y ys =>
      cases c with
      | nil => simp [pyStrLeData] at h2
      | cons z zs =>
        simp only [pyStrLeData, Bool.or_eq_true, decide_eq_true_eq, Bool.and_eq_true] at h1 h2 ⊢
        rcases h1 with h1 | ⟨h1e, h1r⟩
        · rcases h2 with h2 | ⟨h2e, h2r⟩
          · exact Or.inl (by omega)
          · exact Or.inl (by omega)
        · rcases h2 with h2 | ⟨h2e, h2r⟩
          · exact Or.inl (by omega)
          · exact Or.inr ⟨by omega, ih ys zs h1r h2r⟩

theorem pyStrLe_trans : ∀ a b c : String, pyStrLe a b → pyStrLe b c → pyStrLe a c :=
  fun a b c h1 h2 => pyStrLeData_trans a.data b.data c.data h1 h2

theorem pyStrLe_total : ∀ a b : String, (pyStrLe a b || pyStrLe b a) = true :=
  fun a b => pyStrLeData_total a.data b.data

theorem get_xpath_list_eq (cs : List XmlElement) (cur : String) :
    get_xpath_list cs cur = cs.flatMap (fun c => get_xpath c cur) := by
  induction cs with
  | nil => rfl
  | cons c rest ih => rw [get_xpath_list, List.flatMap_cons, ih]

theorem pnodes_list_eq (cs : List XmlElement) (cur : String) :
    pnodes_list cs cur = cs.flatMap (fun c => pnodes c cur) := by
  induction cs with
  | nil => rfl
  | cons c rest ih => rw [pnodes_list, List.flatMap_cons, ih]

/-- `get_xpath` emits exactly the contributions of the visited elements. -/
theorem get_xpath_eq_pnodes (e : XmlElement) :
    ∀ cur, get_xpath e cur = (pnodes e cur).flatMap pathEmit := by
  induction e using xml_ind with
  | h tag attrib text children ih =>
    intro cur
    rw [get_xpath, pnodes, List.flatMap_cons]
    rw [get_xpath_list_eq, pnodes_list_eq]
    have hrest : (children.flatMap
          (fun c => pnodes c (if cur = "" then tag else cur ++ "/" ++ tag))).flatMap pathEmit
        = children.flatMap
            (fun c => get_xpath c (if cur = "" then tag else cur ++ "/" ++ tag)) := by
      induction children with
      | nil => rfl
      | cons c rest ihl =>
        rw [List.flatMap_cons, List.flatMap_cons, List.flatMap_append]
        rw [ihl (fun c2 hc2 => ih c2 (List.mem_cons_of_mem c hc2))]
        rw [ih c (List.mem_cons_self c rest)]
    rw [hrest]
    rfl

theorem mem_pathEmit (p : String) (q : String × XmlElement) :
    p ∈ pathEmit q
      ↔ (p = q.1 ∧ q.2.children = [] ∧ textTruthy q.2.text = true)
        ∨ ∃ a ∈ q.2.attrib, p = q.1 ++ "/@" ++ a.1 := by
  rw [pathEmit, List.mem_append]
  constructor
  · rintro (h | h)
    · by_cases hcond : q.2.children.isEmpty && textTruthy q.2.text
      · rw [if_pos hcond] at h
        rw [List.mem_singleton] at h
        simp only [Bool.and_eq_true, List.isEmpty_iff] at hcond
        exact Or.inl ⟨h, hcond.1, hcond.2⟩
      · rw [if_neg hcond] at h
        exact absurd h (List.not_mem_nil p)
    · obtain ⟨a, ha, rfl⟩ := List.mem_map.mp h
      exact Or.inr ⟨a, ha, rfl⟩
  · rintro (⟨rfl, hch, htx⟩ | ⟨a, ha, rfl⟩)
    · left
      rw [if_pos (by simp [hch, htx])]
      exact List.mem_singleton.mpr rfl
    · right
      exact List.mem_map.mpr ⟨a, ha, rfl⟩

/-- C7: the Path Extractor's output is deduplicated, lexicographically sorted
(by code point, as Python's `sorted`), and contains a path `p` exactly when
some visited element at path `p` is childless with non-whitespace text (a leaf
text path — an element with children never contributes one, whatever its
text), or some visited element at path `q` has an attribute `a` with
`p = q/@a`. -/
theorem C7_path_extractor (r : XmlElement) :
    List.Sorted (fun a b => pyStrLe a b = true) (extract_xml_tags (.wellFormed r))
      ∧ (extract_xml_tags (.wellFormed r)).Nodup
      ∧ ∀ p : String,
          p ∈ extract_xml_tags (.wellFormed r)
            ↔ ∃ q ∈ pnodes r "",
                (p = q.1 ∧ q.2.children = [] ∧ textTruthy q.2.text = true)
                ∨ ∃ a ∈ q.2.attrib, p = q.1 ++ "/@" ++ a.1 := by
  refine ⟨?_, ?_, ?_⟩
  · exact @List.sorted_mergeSort String pyStrLe pyStrLe_trans pyStrLe_total (get_xpath r "").dedup
  · exact (List.mergeSort_perm (get_xpath r "").dedup pyStrLe).symm.nodup
      (List.nodup_dedup (get_xpath r ""))
  · intro p
    rw [show extract_xml_tags (.wellFormed r)
        = List.mergeSort (get_xpath r "").dedup pyStrLe from rfl]
    rw [List.mem_mergeSort, List.mem_dedup, get_xpath_eq_pnodes r "", List.mem_flatMap]
    constructor
    · rintro ⟨q, hq, hp⟩
      exact ⟨q, hq, (mem_pathEmit p q).mp hp⟩
    · rintro ⟨q, hq, hp⟩
      exact ⟨q, hq, (mem_pathEmit p q).mpr hp⟩

/-! ## C3: extracted paths always resolve -/

theorem string_ext {a b : String} (h : a.data = b.data) : a = b := by
  cases a
  cases b
  exact congrArg String.mk h

theorem string_eq_empty_iff (s : String) : s = "" ↔ s.data = [] := by
  constructor
  · rintro rfl
    rfl
  · intro h
    cases s
    exact congrArg String.mk h

theorem plainTok_props (tok : List Char) (h : plainTok tok = true) :
    tok ≠ [] ∧ ∀ c ∈ tok, c ≠ '/' ∧ c ≠ '@' := by
  simp only [plainTok, Bool.and_eq_true, Bool.not_eq_true', List.all_eq_true] at h
  obtain ⟨⟨⟨he, _⟩, _⟩, hall⟩ := h
  refine ⟨by simpa [List.isEmpty_iff] using he, ?_⟩
  intro c hc
  have hsc := hall c hc
  simp only [Bool.not_eq_true'] at hsc
  constructor
  · rintro rfl
    simp [pathSpecialChar] at hsc
  · rintro rfl
    simp [pathSpecialChar] at hsc

theorem plainTok_ne (tok : List Char) (h : plainTok tok = true) :
    tok ≠ [] ∧ tok ≠ ['.'] ∧ tok ≠ ['*'] := by
  have hp := plainTok_props tok h
  refine ⟨hp.1, ?_, ?_⟩
  · simp only [plainTok, Bool.and_eq_true] at h
    have := h.1.1.2
    simpa using this
  · rintro rfl
    have := (hp.2 '*' (by simp)).1
    simp only [plainTok, Bool.and_eq_true, List.all_eq_true] at h
    have hsc := h.2 '*' (by simp)
    simp [pathSpecialChar] at hsc

theorem joinSegs_cons (s : List Char) (rest : List (List Char)) (h : rest ≠ []) :
    joinSegs (s :: rest) = s ++ '/' :: joinSegs rest := by
  cases rest with
  | nil => exact absurd rfl h
  | cons t ts => rfl

theorem joinSegs_append_singleton (segs : List (List Char)) (y : List Char) (h : segs ≠ []) :
    joinSegs (segs ++ [y]) = joinSegs segs ++ '/' :: y := by
  induction segs with
  | nil => exact absurd rfl h
  | cons s rest ih =>
    cases rest with
    | nil => rfl
    | cons t ts =>
      rw [List.cons_append, joinSegs_cons s ((t :: ts) ++ [y]) (by simp),
        ih (by simp), joinSegs_cons s (t :: ts) (by simp)]
      simp

theorem mem_joinSegs (c : Char) (segs : List (List Char)) (h : c ∈ joinSegs segs) :
    c = '/' ∨ ∃ s ∈ segs, c ∈ s := by
  induction segs with
  | nil => exact absurd h (List.not_mem_nil c)
  | cons s rest ih =>
    cases rest with
    | nil =>
      exact Or.inr ⟨s, List.mem_singleton.mpr rfl, h⟩
    | cons t ts =>
      rw [joinSegs_cons s (t :: ts) (by simp)] at h
      rcases List.mem_append.mp h with h1 | h1
      · exact Or.inr ⟨s, List.mem_cons_self s _, h1⟩
      · rcases List.mem_cons.mp h1 with h2 | h2
        · exact Or.inl h2
        · rcases ih h2 with h3 | ⟨s2, hs2, hc2⟩
          · exact Or.inl h3
          · exact Or.inr ⟨s2, List.mem_cons_of_mem s hs2, hc2⟩

theorem joinSegs_ne_nil (segs : List (List Char)) (h : segs ≠ [])
    (hall : ∀ s ∈ segs, s ≠ []) : joinSegs segs ≠ [] := by
  cases segs with
  | nil => exact absurd rfl h
  | cons s rest =>
    cases rest with
    | nil => exact hall s (List.mem_singleton.mpr rfl)
    | cons t ts =>
      rw [joinSegs_cons s (t :: ts) (by simp)]
      simp

theorem joinSegs_getLast_ne_slash (segs : List (List Char)) (h : segs ≠ [])
    (hall : ∀ s ∈ segs, plainTok s = true) :
    ∀ x, (joinSegs segs).getLast? = some x → x ≠ '/' := by
  induction segs with
  | nil => exact absurd rfl h
  | cons s rest ih =>
    cases rest with
    | nil =>
      intro x hx
      have hmem := List.mem_of_getLast?_eq_some hx
      exact ((plainTok_props s (hall s (List.mem_singleton.mpr rfl))).2 x hmem).1
    | cons t ts =>
      intro x hx
      rw [joinSegs_cons s (t :: ts) (by simp),
        List.getLast?_append_of_ne_nil s (by simp), getLast?_cons_or] at hx
      have hnn : joinSegs (t :: ts) ≠ [] :=
        joinSegs_ne_nil (t :: ts) (by simp)
          (fun s2 hs2 => (plainTok_props s2 (hall s2 (List.mem_cons_of_mem s hs2))).1)
      cases hl : (joinSegs (t :: ts)).getLast? with
      | none => exact absurd (List.getLast?_eq_none_iff.mp hl) hnn
      | some y =>
        rw [hl, Option.or_some] at hx
        injection hx with h2
        subst h2
        exact ih (by simp) (fun s2 hs2 => hall s2 (List.mem_cons_of_mem s hs2)) _ hl

theorem splitChar_ne_nil (sep : Char) (s : List Char) : splitChar sep s ≠ [] := by
  cases s with
  | nil => simp [splitChar]
  | cons c cs =>
    rw [splitChar]
    cases splitChar sep cs with
    | nil => simp
    | cons h t => by_cases hc : c = sep <;> simp [hc]

theorem splitChar_no_sep (sep : Char) (s : List Char) (h : sep ∉ s) :
    splitChar sep s = [s] := by
  induction s with
  | nil => rfl
  | cons c cs ih =>
    rw [splitChar, ih (fun hmem => h (List.mem_cons_of_mem c hmem))]
    have hcne : ¬(c = sep) := fun hc => h (hc ▸ List.mem_cons_self c cs)
    simp [hcne]

theorem splitChar_sep_append (sep : Char) (s r : List Char) (h : sep ∉ s) :
    splitChar sep (s ++ sep :: r) = s :: splitChar sep r := by
  induction s with
  | nil =>
    rw [List.nil_append, splitChar]
    cases hs : splitChar sep r with
    | nil => exact absurd hs (splitChar_ne_nil sep r)
    | cons h2 t2 => simp
  | cons c cs ih =>
    rw [List.cons_append, splitChar, ih (fun hmem => h (List.mem_cons_of_mem c hmem))]
    have hcne : ¬(c = sep) := fun hc => h (hc ▸ List.mem_cons_self c cs)
    simp [hcne]

theorem splitChar_joinSegs (segs : List (List Char)) (h : segs ≠ [])
    (hall : ∀ s ∈ segs, plainTok s = true) :
    splitChar '/' (joinSegs segs) = segs := by
  induction segs with
  | nil => exact absurd rfl h
  | cons s rest ih =>
    have hns : '/' ∉ s := fun hmem =>
      ((plainTok_props s (hall s (List.mem_cons_self s rest))).2 '/' hmem).1 rfl
    cases rest with
    | nil => exact splitChar_no_sep '/' s hns
    | cons t ts =>
      rw [joinSegs_cons s (t :: ts) (by simp), splitChar_sep_append '/' s _ hns,
        ih (by simp) (fun s2 hs2 => hall s2 (List.mem_cons_of_mem s hs2))]

theorem selectChain_plain (toks : List (List Char))
    (hall : ∀ t ∈ toks, plainTok t = true) :
    ∀ cur, ∃ es, selectChain toks cur = some es := by
  induction toks with
  | nil => exact fun cur => ⟨cur, rfl⟩
  | cons tok rest ih =>
    intro cur
    have hne := plainTok_ne tok (hall tok (List.mem_cons_self tok rest))
    rw [selectChain.eq_def]
    simp only []
    rw [if_neg hne.2.1, if_neg hne.2.2, if_pos (hall tok (List.mem_cons_self tok rest))]
    exact ih (fun t ht => hall t (List.mem_cons_of_mem tok ht)) _

theorem findall_dot (root : XmlElement) : findall root "." = some [root] := rfl

theorem findall_chain (root : XmlElement) (q : String) (segs : List (List Char))
    (hq : q.data = joinSegs segs) (hne : segs ≠ [])
    (hall : ∀ s ∈ segs, plainTok s = true) :
    ∃ es, findall root q = some es := by
  have hsne : ∀ s ∈ segs, s ≠ [] := fun s hs => (plainTok_props s (hall s hs)).1
  have hqne : q ≠ "" := by
    intro hcon
    have h2 := (string_eq_empty_iff q).mp hcon
    rw [hq] at h2
    exact joinSegs_ne_nil segs hne hsne h2
  have hlast : ¬(q.data.getLast? = some '/') := by
    intro hcon
    rw [hq] at hcon
    exact joinSegs_getLast_ne_slash segs hne hall '/' hcon rfl
  rw [findall, if_neg hqne, if_neg hlast, hq, splitChar_joinSegs segs hne hall]
  cases segs with
  | nil => exact absurd rfl hne
  | cons t ts =>
    rw [show (match t :: ts with
        | [] => some [root]
        | tok :: rest => if tok = [] then none else selectChain (tok :: rest) [root])
      = if t = [] then none else selectChain (t :: ts) [root] from rfl]
    rw [if_neg (hsne t (List.mem_cons_self t ts))]
    exact selectChain_plain (t :: ts) hall [root]

theorem wfList_mem (cs : List XmlElement) (h : wfList cs = true) :
    ∀ c ∈ cs, wfElem c = true := by
  induction cs with
  | nil => intro c hc; exact absurd hc (List.not_mem_nil c)
  | cons c2 rest ih =>
    rw [wfList, Bool.and_eq_true] at h
    intro c hc
    rcases List.mem_cons.mp hc with rfl | hmem
    · exact h.1
    · exact ih h.2 c hmem

theorem wfElem_parts (e : XmlElement) (h : wfElem e = true) :
    plainName e.tag = true ∧ (∀ a ∈ e.attrib, plainName a.1 = true)
      ∧ wfList e.children = true := by
  obtain ⟨tag, attrib, text, children⟩ := e
  rw [wfElem, Bool.and_eq_true, Bool.and_eq_true] at h
  exact ⟨h.1.1, by simpa [XmlElement.attrib, List.all_eq_true] using h.1.2, h.2⟩

theorem get_xpath_shape (e : XmlElement) :
    ∀ cur curSegs,
      wfElem e = true →
      ((cur = "" ∧ curSegs = []) ∨
        (cur.data = joinSegs curSegs ∧ curSegs ≠ [] ∧ ∀ s ∈ curSegs, plainTok s = true)) →
      ∀ p ∈ get_xpath e cur,
        ∃ ds : List (List Char), (∀ s ∈ ds, plainTok s = true) ∧
          (p.data = joinSegs (curSegs ++ e.tag.data :: ds)
           ∨ ∃ a : List Char, plainTok a = true ∧
               p.data = joinSegs (curSegs ++ e.tag.data :: ds) ++ '/' :: '@' :: a) := by
  induction e using xml_ind with
  | h tag attrib text children ih =>
    intro cur curSegs hwf hcur p hp
    rw [show (XmlElement.mk tag attrib text children).tag = tag from rfl]
    have hwfp := wfElem_parts _ hwf
    rw [show (XmlElement.mk tag attrib text children).tag = tag from rfl] at hwfp
    rw [show (XmlElement.mk tag attrib text children).attrib = attrib from rfl] at hwfp
    rw [show (XmlElement.mk tag attrib text children).children = children from rfl] at hwfp
    have hpath : (if cur = "" then tag else cur ++ "/" ++ tag).data
        = joinSegs (curSegs ++ [tag.data]) := by
      rcases hcur with ⟨hc1, hc2⟩ | ⟨hc1, hc2, hc3⟩
      · subst hc1
        subst hc2
        rw [if_pos rfl]
        rfl
      · have hcne : cur ≠ "" := by
          intro hcon
          have h2 := (string_eq_empty_iff cur).mp hcon
          rw [hc1] at h2
          exact joinSegs_ne_nil curSegs hc2
            (fun s hs => (plainTok_props s (hc3 s hs)).1) h2
        rw [if_neg hcne, joinSegs_append_singleton curSegs tag.data hc2, ← hc1]
        rw [String.data_append, String.data_append]
        simp
    rw [get_xpath] at hp
    rcases List.mem_append.mp hp with hp1 | hp2
    · rcases List.mem_append.mp hp1 with hp3 | hp4
      · by_cases hcond : children.isEmpty && textTruthy text
        · rw [if_pos hcond, List.mem_singleton] at hp3
          subst hp3
          exact ⟨[], by simp, Or.inl hpath⟩
        · rw [if_neg hcond] at hp3
          exact absurd hp3 (List.not_mem_nil p)
      · obtain ⟨a, ha, rfl⟩ := List.mem_map.mp hp4
        refine ⟨[], by simp, Or.inr ⟨a.1.data, hwfp.2.1 a ha, ?_⟩⟩
        rw [String.data_append, String.data_append, hpath]
        simp
    · rw [get_xpath_list_eq] at hp2
      obtain ⟨c, hc, hpc⟩ := List.mem_flatMap.mp hp2
      have hcw := wfList_mem children hwfp.2.2 c hc
      have hcur2 : ((if cur = "" then tag else cur ++ "/" ++ tag) = ""
            ∧ curSegs ++ [tag.data] = [])
          ∨ ((if cur = "" then tag else cur ++ "/" ++ tag).data
              = joinSegs (curSegs ++ [tag.data])
            ∧ curSegs ++ [tag.data] ≠ []
            ∧ ∀ s ∈ curSegs ++ [tag.data], plainTok s = true) := by
        refine Or.inr ⟨hpath, by simp, ?_⟩
        intro s hs
        rcases List.mem_append.mp hs with hs1 | hs1
        · rcases hcur with ⟨_, hc2⟩ | ⟨_, _, hc3⟩
          · subst hc2
            exact absurd hs1 (List.not_mem_nil s)
          · exact hc3 s hs1
        · rw [List.mem_singleton] at hs1
          subst hs1
          exact hwfp.1
      obtain ⟨ds, hds, hdisj⟩ :=
        ih c hc (if cur = "" then tag else cur ++ "/" ++ tag) (curSegs ++ [tag.data])
          hcw hcur2 p hpc
      refine ⟨c.tag.data :: ds, ?_, ?_⟩
      · intro s hs
        rcases List.mem_cons.mp hs with rfl | hs2
        · exact (wfElem_parts c hcw).1
        · exact hds s hs2
      · rw [show curSegs ++ tag.data :: c.tag.data :: ds
            = (curSegs ++ [tag.data]) ++ c.tag.data :: ds by simp]
        exact hdisj

theorem rsplitLast_cons (c : Char) (cs : List Char) :
    rsplitLast (c :: cs)
      = match rsplitLast cs with
        | some (a, b) => some (c :: a, b)
        | none => rsplitHead c cs := rfl

theorem rsplitLast_cons_some (c : Char) (cs a b : List Char)
    (h : rsplitLast cs = some (a, b)) :
    rsplitLast (c :: cs) = some (c :: a, b) := by
  rw [rsplitLast_cons, h]

theorem rsplitLast_cons_none (c : Char) (cs : List Char) (h : rsplitLast cs = none) :
    rsplitLast (c :: cs) = rsplitHead c cs := by
  rw [rsplitLast_cons, h]

theorem rsplitLast_eq_none (l : List Char) (h : '@' ∉ l) : rsplitLast l = none := by
  induction l with
  | nil => rfl
  | cons c cs ih =>
    rw [rsplitLast_cons_none c cs (ih (fun hmem => h (List.mem_cons_of_mem c hmem))),
      rsplitHead.eq_def]
    by_cases hc : c = '/'
    · rw [if_pos hc]
      cases cs with
      | nil => rfl
      | cons c2 rest =>
        show (if c2 = '@' then some (([] : List Char), rest) else none) = none
        rw [if_neg (fun h2 : c2 = '@' => h (by
          rw [h2]
          exact List.mem_cons_of_mem c (List.mem_cons_self '@' rest)))]
    · rw [if_neg hc]

theorem rsplitLast_at_cons (a : List Char) (ha : '@' ∉ a) :
    rsplitLast ('@' :: a) = none := by
  rw [rsplitLast_cons_none '@' a (rsplitLast_eq_none a ha), rsplitHead.eq_def,
    if_neg (by decide)]

theorem rsplitLast_append (l a : List Char) (hl : '@' ∉ l) (ha : '@' ∉ a) :
    rsplitLast (l ++ '/' :: '@' :: a) = some (l, a) := by
  induction l with
  | nil =>
    rw [List.nil_append, rsplitLast_cons_none '/' ('@' :: a) (rsplitLast_at_cons a ha),
      rsplitHead.eq_def, if_pos rfl]
    show (if '@' = '@' then some (([] : List Char), a) else none) = some ([], a)
    rw [if_pos rfl]
  | cons c l2 ih =>
    rw [List.cons_append,
      rsplitLast_cons_some c _ _ _ (ih (fun hmem => hl (List.mem_cons_of_mem c hmem)))]

theorem resolvePath_ok (rootTag : String) (q : String) (ds : List (List Char))
    (hds : ∀ s ∈ ds, plainTok s = true)
    (hq : q.data = joinSegs (rootTag.data :: ds)) :
    (ds = [] ∧ resolvePath rootTag q = ".") ∨
    (ds ≠ [] ∧ (resolvePath rootTag q).data = joinSegs ds) := by
  cases ds with
  | nil =>
    left
    refine ⟨rfl, ?_⟩
    have hqe : q = rootTag := string_ext (by rw [hq]; rfl)
    rw [resolvePath, if_pos hqe]
  | cons d ds2 =>
    right
    refine ⟨by simp, ?_⟩
    have hqd : q.data = rootTag.data ++ '/' :: joinSegs (d :: ds2) := by
      rw [hq, joinSegs_cons _ _ (by simp)]
    have hne : q ≠ rootTag := by
      intro hcon
      have h2 : q.data = rootTag.data := congrArg String.data hcon
      rw [hqd] at h2
      have h3 := congrArg List.length h2
      simp at h3
    have hsw : pyStartsWith q (rootTag ++ "/") = true := by
      rw [pyStartsWith, List.isPrefixOf_iff_prefix, String.data_append, hqd,
        show ("/" : String).data = ['/'] from rfl,
        show rootTag.data ++ '/' :: joinSegs (d :: ds2)
          = (rootTag.data ++ ['/']) ++ joinSegs (d :: ds2) by simp]
      exact List.prefix_append _ _
    rw [resolvePath, if_neg hne, if_pos hsw, pyDropChars,
      show (⟨q.data.drop (rootTag.length + 1)⟩ : String).data
        = q.data.drop (rootTag.length + 1) from rfl,
      hqd, show rootTag.length = rootTag.data.length from rfl,
      show rootTag.data ++ '/' :: joinSegs (d :: ds2)
        = (rootTag.data ++ ['/']) ++ joinSegs (d :: ds2) by simp,
      show rootTag.data.length + 1 = (rootTag.data ++ ['/']).length by simp]
    exact List.drop_left _ _

theorem extractColumn_ok (root : XmlElement) (hroot : plainTok root.tag.data = true)
    (p : String) (ds : List (List Char)) (hds : ∀ s ∈ ds, plainTok s = true)
    (hdisj : p.data = joinSegs (root.tag.data :: ds)
      ∨ ∃ a, plainTok a = true ∧ p.data = joinSegs (root.tag.data :: ds) ++ '/' :: '@' :: a) :
    ∃ vs, extractColumn root p = .ok vs := by
  have hall : ∀ s ∈ root.tag.data :: ds, plainTok s = true := by
    intro s hs
    rcases List.mem_cons.mp hs with rfl | h2
    · exact hroot
    · exact hds s h2
  have hnotat : '@' ∉ joinSegs (root.tag.data :: ds) := by
    intro hmem
    rcases mem_joinSegs '@' _ hmem with h1 | ⟨s, hs, hcs⟩
    · exact absurd h1 (by decide)
    · exact ((plainTok_props s (hall s hs)).2 '@' hcs).2 rfl
  have hres : ∀ q : String, q.data = joinSegs (root.tag.data :: ds) →
      ∃ es, findall root (resolvePath root.tag q) = some es := by
    intro q hq
    rcases resolvePath_ok root.tag q ds hds hq with ⟨_, hr⟩ | ⟨hds0, hr⟩
    · rw [hr]
      exact ⟨[root], findall_dot root⟩
    · exact findall_chain root _ ds hr hds0 hds
  rcases hdisj with hel | ⟨a, hap, hat⟩
  · have hmemp : '@' ∉ p.data := by
      rw [hel]
      exact hnotat
    have hnc : pyContains p '@' = false := by
      rw [pyContains, Bool.eq_false_iff]
      intro hcon
      obtain ⟨b, hb, hab⟩ := List.contains_iff_exists_mem_beq.mp hcon
      rw [show b = '@' from (eq_of_beq hab).symm] at hb
      exact hmemp hb
    obtain ⟨es, hes⟩ := hres p hel
    rw [extractColumn, hnc, if_neg (by simp), hes]
    exact ⟨_, rfl⟩
  · have hnota : '@' ∉ a := fun hmem => ((plainTok_props a hap).2 '@' hmem).2 rfl
    have hc : pyContains p '@' = true := by
      rw [pyContains, hat]
      simp
    obtain ⟨es, hes⟩ := hres ⟨joinSegs (root.tag.data :: ds)⟩ rfl
    rw [extractColumn, hc, if_pos rfl, hat, rsplitLast_append _ _ hnotat hnota]
    show (∃ vs, (match findall root
        (resolvePath root.tag ⟨joinSegs (root.tag.data :: ds)⟩) with
      | none => Except.error ExtractError.badSearch
      | some es => Except.ok (es.map (fun e => alistGet e.attrib ⟨a⟩))) = Except.ok vs)
    rw [hes]
    exact ⟨_, rfl⟩

/-- C3: round trip — every path the Path Extractor returns for a well-formed
document resolves without error when fed back to the Value Extractor as a
single-column mapping: the result is a one-sheet, one-column table whose value
list has length ≥ 0. -/
theorem C3_roundtrip (r : XmlElement) (hwf : wfElem r = true)
    (sheet col p : String) (hp : p ∈ extract_xml_tags (.wellFormed r)) :
    ∃ vs : List Cell,
      extract_data_from_one_xml (.wellFormed r) [(sheet, [(col, p)])]
        = .ok [(sheet, [(col, vs)])] ∧ 0 ≤ vs.length := by
  have hget : p ∈ get_xpath r "" := by
    rw [show extract_xml_tags (.wellFormed r)
        = List.mergeSort (get_xpath r "").dedup pyStrLe from rfl] at hp
    exact List.mem_dedup.mp (List.mem_mergeSort.mp hp)
  obtain ⟨ds, hds, hdisj⟩ := get_xpath_shape r "" [] hwf (Or.inl ⟨rfl, rfl⟩) p hget
  have hroot : plainTok r.tag.data = true := by
    have := (wfElem_parts r hwf).1
    rw [plainName] at this
    exact this
  obtain ⟨vs, hvs⟩ := extractColumn_ok r hroot p ds hds (by simpa using hdisj)
  refine ⟨vs, ?_, Nat.zero_le _⟩
  have hmax : (if vs.length > 0 then vs.length else 0) = vs.length := by
    by_cases h0 : vs.length > 0
    · rw [if_pos h0]
    · rw [if_neg h0]
      omega
  show extractSheets r [(sheet, [(col, p)])] [] = _
  rw [extractSheets, extractSheetCols, hvs]
  show extractSheets r []
      (dictInsert [] sheet
        (alignTo (dictInsert [] col vs) (if vs.length > 0 then vs.length else 0))) = _
  rw [hmax]
  simp [extractSheets, dictInsert, alistGet, alignTo]

unseal List.merge List.mergeSort in
/-- Witness for C3 at a concrete document: the extracted path `r/x` feeds back
into a one-column extraction with a successful result. -/
theorem C3_roundtrip_witness :
    wfElem (XmlElement.mk "r" [("a", "1")] none [.mk "x" [] (some "v") []]) = true
      ∧ "r/x" ∈ extract_xml_tags
          (.wellFormed (XmlElement.mk "r" [("a", "1")] none [.mk "x" [] (some "v") []]))
      ∧ ∃ vs : List Cell,
          extract_data_from_one_xml
              (.wellFormed (XmlElement.mk "r" [("a", "1")] none [.mk "x" [] (some "v") []]))
              [("S", [("C", "r/x")])]
            = .ok [("S", [("C", vs)])] ∧ 0 ≤ vs.length :=
  ⟨by decide, by decide,
    C3_roundtrip (XmlElement.mk "r" [("a", "1")] none [.mk "x" [] (some "v") []])
      (by decide) "S" "C" "r/x" (by decide)⟩

/-! ## C2: invalid search expressions abort the whole call -/

/-- C2 counterexample: one syntactically invalid mapping (`r/@a/@b` resolves
to the invalid expression `@a`) makes the whole extraction call fail; the
well-formed column `Good` of the same sheet is not processed and no result
map is produced. -/
theorem C2_counterexample :
    extract_data_from_one_xml
        (.wellFormed (XmlElement.mk "r" [] none [.mk "x" [] (some "1") []]))
        [("S1", [("Bad", "r/@a/@b"), ("Good", "r/x")])]
      = .error .badSearch := rfl

/-- C2 amended: a column whose search expression fails does not contribute an
empty list — the error escapes `extract_data_from_one_xml` (there is no
per-column handler in process.py), so the whole call aborts and every other
column and sheet of the call is lost. -/
theorem C2_invalid_path_aborts (root : XmlElement) (sheet colName p : String)
    (rest : List (String × String)) (e : ExtractError)
    (h : extractColumn root p = .error e) :
    extract_data_from_one_xml (.wellFormed root) [(sheet, (colName, p) :: rest)]
      = .error e := by
  show extractSheets root [(sheet, (colName, p) :: rest)] [] = _
  rw [extractSheets, extractSheetCols, h]

/-- Witness for C2 at the counterexample input. -/
theorem C2_invalid_path_aborts_witness :
    extract_data_from_one_xml
        (.wellFormed (XmlElement.mk "r" [] none [.mk "x" [] (some "1") []]))
        [("S1", [("Bad", "r/@a/@b"), ("Good", "r/x")])]
      = .error .badSearch :=
  C2_invalid_path_aborts (XmlElement.mk "r" [] none [.mk "x" [] (some "1") []])
    "S1" "Bad" "r/@a/@b" [("Good", "r/x")] .badSearch rfl

/-! ## C8: attribute paths with no carrying element -/

/-- C8 counterexample: for the attribute path `r/t/@y` no element carries the
attribute `y`, yet the element `t` matches the base path, so the Value
Extractor returns one `None` per match — a list of length 1, not the empty
list the claim states. -/
theorem C8_counterexample :
    extract_data_from_one_xml
        (.wellFormed (XmlElement.mk "r" [] none [.mk "t" [("x", "1")] none []]))
        [("S", [("C", "r/t/@y")])]
      = .ok [("S", [("C", [none])])] ∧ ([none] : List Cell) ≠ [] :=
  ⟨rfl, by simp⟩

/-- C8 amended: for an attribute path, the Value Extractor returns
`element.get(attr)` — possibly `None` — for each element matching the base
path, and never an error; the list is empty exactly when no element matches
the base path (not when no element carries the attribute). -/
theorem C8_attribute_extraction (root : XmlElement) (sheet colName p : String)
    (base attr : List Char) (es : List XmlElement)
    (hat : pyContains p '@' = true)
    (hsplit : rsplitLast p.data = some (base, attr))
    (hfind : findall root (resolvePath root.tag ⟨base⟩) = some es) :
    extract_data_from_one_xml (.wellFormed root) [(sheet, [(colName, p)])]
      = .ok [(sheet, [(colName, es.map (fun el => alistGet el.attrib ⟨attr⟩))])] := by
  have hcol : extractColumn root p
      = .ok (es.map (fun el => alistGet el.attrib ⟨attr⟩)) := by
    rw [extractColumn, hat, if_pos rfl, hsplit]
    show (match findall root (resolvePath root.tag ⟨base⟩) with
      | none => Except.error ExtractError.badSearch
      | some es2 => Except.ok (es2.map (fun el : XmlElement => alistGet el.attrib ⟨attr⟩)))
      = _
    rw [hfind]
  have hmax : (if (es.map (fun el => alistGet el.attrib ⟨attr⟩)).length
        > 0 then (es.map (fun el => alistGet el.attrib ⟨attr⟩)).length else 0)
      = (es.map (fun el => alistGet el.attrib ⟨attr⟩)).length := by
    by_cases h0 : (es.map (fun el => alistGet el.attrib ⟨attr⟩)).length > 0
    · rw [if_pos h0]
    · rw [if_neg h0]
      omega
  show extractSheets root [(sheet, [(colName, p)])] [] = _
  rw [extractSheets, extractSheetCols, hcol]
  show extractSheets root []
      (dictInsert [] sheet
        (alignTo (dictInsert [] colName (es.map (fun el => alistGet el.attrib ⟨attr⟩)))
          (if (es.map (fun el => alistGet el.attrib ⟨attr⟩)).length > 0
           then (es.map (fun el => alistGet el.attrib ⟨attr⟩)).length else 0))) = _
  rw [hmax]
  simp [extractSheets, dictInsert, alistGet, alignTo]

/-- Witness for C8: a document with no element matching the base path `r/q`
gives the empty value list without an error. -/
theorem C8_attribute_extraction_witness :
    extract_data_from_one_xml (.wellFormed (XmlElement.mk "r" [] none []))
        [("S", [("C", "r/q/@a")])]
      = .ok [("S", [("C", ([] : List Cell))])] :=
  C8_attribute_extraction (XmlElement.mk "r" [] none []) "S" "C" "r/q/@a"
    "r/q".data "a".data [] rfl rfl rfl
